import Mathlib

/-!
Verification of the mindmap-construction core of `backend/app.py`
(`generate_mindmap_data`, from the sentence split at line 93 onward).

The summarization step (lines 68-82) is an external collaborator per the
spec; the core modelled here takes the full summary text as input.

Python strings are modelled as `List Char`.  The regex `\s` / `str.strip`
whitespace class is modelled by the ASCII whitespace characters, and
`str.lower` by ASCII lower-casing; all configured keywords and the texts
exercised here are ASCII.
-/

/-- Python strings, modelled as lists of characters. -/
abbrev Str := List Char

/-- The whitespace class used by `\s` in the split regex and by `str.strip`
(ASCII fragment). -/
def isWs (c : Char) : Bool :=
  c = ' ' || c = '\t' || c = '\n' || c = '\r' || c = '\x0b' || c = '\x0c'

/-- The sentence-boundary punctuation class `[.!?]` of the split regex. -/
def isPunct (c : Char) : Bool :=
  c = '.' || c = '!' || c = '?'

/-- Whether a string starts with a whitespace character. -/
def headIsWs : Str → Bool
  | [] => false
  | c :: _ => isWs c

/-- One pass of `re.split(r'(?<=[.!?])\s+', text)`: scan left to right; a
position whose previous character is `[.!?]` and whose current character is
whitespace starts a (greedy, maximal) separator run.  `skipping` records
whether we are inside such a run, `acc` holds the current piece reversed. -/
def rawSplitGo : Bool → Str → Str → List Str
  | _, acc, [] => [acc.reverse]
  | skipping, acc, c :: rest =>
    if skipping && isWs c then rawSplitGo true acc rest
    else if isPunct c && headIsWs rest then
      (acc.reverse ++ [c]) :: rawSplitGo true [] rest
    else rawSplitGo false (c :: acc) rest

/-- `re.split(r'(?<=[.!?])\s+', text)` (line 93). -/
def rawSplit (text : Str) : List Str :=
  rawSplitGo false [] text

/-- Python `str.strip()`: drop surrounding whitespace. -/
def stripChars (l : Str) : Str :=
  ((l.dropWhile isWs).reverse.dropWhile isWs).reverse

/-- Line 93: `[s.strip() for s in re.split(r'(?<=[.!?])\s+', full_summary) if s.strip()]`. -/
def splitSentences (text : Str) : List Str :=
  ((rawSplit text).map stripChars).filter (fun s => !s.isEmpty)

/-- Python `str.lower` on one character (ASCII fragment). -/
def lowerChar (c : Char) : Char :=
  if 'A' ≤ c ∧ c ≤ 'Z' then Char.ofNat (c.toNat + 32) else c

/-- Python `str.lower` (ASCII fragment). -/
def lowerStr (s : Str) : Str := s.map lowerChar

/-- Whether `pat` is an initial segment of `s`. -/
def leadsWith : Str → Str → Bool
  | [], _ => true
  | _ :: _, [] => false
  | a :: as, b :: bs => a == b && leadsWith as bs

/-- Python substring containment `needle in hay`. -/
def containsSub (needle : Str) : Str → Bool
  | [] => leadsWith needle []
  | c :: t => leadsWith needle (c :: t) || containsSub needle t

/-- The configuration constant `medical_keywords` (line 96). -/
def medical_keywords : List Str :=
  ["disease", "syndrome", "therapy", "treatment", "diagnosis", "patient",
   "cell", "organ", "system", "medicine", "drug", "condition", "pathology",
   "physiology"].map String.toList

/-- The inner keyword loop (lines 99-102): on the first keyword contained in
the lower-cased sentence, append the sentence to the topic list if absent
and break. -/
def innerKeywordScan (s : Str) (topics : List Str) : List Str → List Str
  | [] => topics
  | k :: ks =>
    if containsSub k (lowerStr s) = true ∧ s ∉ topics then topics ++ [s]
    else innerKeywordScan s topics ks

/-- The outer sentence loop of the topic selector (lines 98-102). -/
def scanForTopics (kws : List Str) : List Str → List Str → List Str
  | topics, [] => topics
  | topics, s :: ss => scanForTopics kws (innerKeywordScan s topics kws) ss

/-- Topic selection with fallback (lines 97-106): keyword scan, then if no
topic was found and sentences exist, the first `min(3, len(sentences))`
sentences. -/
def computeMainTopics (kws : List Str) (sentences : List Str) : List Str :=
  let t := scanForTopics kws [] sentences
  if t = [] ∧ sentences ≠ [] then sentences.take (min 3 sentences.length) else t

/-- `f"node-{i}"`. -/
def topicId (i : Nat) : String := "node-" ++ Nat.repr i

/-- `f"node-{i}-sub-{j}"`. -/
def subId (i j : Nat) : String := "node-" ++ Nat.repr i ++ "-sub-" ++ Nat.repr j

/-- `f"node-other-sub-{k}"`. -/
def otherId (k : Nat) : String := "node-other-sub-" ++ Nat.repr k

/-- A mindmap node `{id, text, children}`; a leaf has empty `children`
(the Python dict omits the key for sub-nodes, which serializes the same). -/
inductive Node : Type where
  | mk (id : String) (text : Str) (children : List Node) : Node

def Node.id : Node → String
  | .mk i _ _ => i

def Node.text : Node → Str
  | .mk _ t _ => t

def Node.children : Node → List Node
  | .mk _ _ c => c

/-- `used_sentences.add s` on the used-set, modelled as a duplicate-free
list: membership is set membership and length is set cardinality. -/
def addUsed (used : List Str) (s : Str) : List Str :=
  if s ∈ used then used else s :: used

/-- The sub-node assignment loop for topic `i` (lines 133-141): scan the
whole sentence list; each sentence not yet used while fewer than 3 subs have
been added becomes a leaf child and is marked used. -/
def assignSubs (i : Nat) : List Str → List Str → Nat → List Node × List Str
  | [], used, _ => ([], used)
  | s :: ss, used, cnt =>
    if s ∉ used ∧ cnt < 3 then
      let r := assignSubs i ss (addUsed used s) (cnt + 1)
      (Node.mk (subId i cnt) s [] :: r.1, r.2)
    else assignSubs i ss used cnt

/-- The topic loop (lines 122-141): for each topic in order create its node,
mark the topic used, then run the sub-node assignment scan. -/
def buildTopics (sentences : List Str) : List Str → Nat → List Str → List Node × List Str
  | [], _, used => ([], used)
  | t :: ts, i, used =>
    let used1 := addUsed used t
    let r := assignSubs i sentences used1 0
    let rest := buildTopics sentences ts (i + 1) r.2
    (Node.mk (topicId i) t r.1 :: rest.1, rest.2)

/-- The catch-all collection loop (lines 151-156): every sentence not in the
used-set becomes a child of `node-other`, with the id index equal to the
current child count; the used-set is not updated. -/
def collectOtherGo (used : List Str) : List Str → Nat → List Node
  | [], _ => []
  | s :: ss, k =>
    if s ∉ used then Node.mk (otherId k) s [] :: collectOtherGo used ss (k + 1)
    else collectOtherGo used ss k

def rootText : Str := "Medical Document Overview".toList

def otherText : Str := "Other Details".toList

/-- `generate_mindmap_data` from the sentence split onward (lines 93-160):
split, select topics, build topic nodes with sub-nodes, and append the
catch-all node when `len(sentences) > len(used_sentences)` and it has at
least one child. -/
def generate_mindmap_data (full_summary : Str) : Node :=
  let sentences := splitSentences full_summary
  let main_topics := computeMainTopics medical_keywords sentences
  let built := buildTopics sentences main_topics 0 []
  let children :=
    if sentences.length > built.2.length then
      let others := collectOtherGo built.2 sentences 0
      if others.isEmpty then built.1
      else built.1 ++ [Node.mk "node-other" otherText others]
    else built.1
  Node.mk "root" rootText children

/-- The worked example of spec section 8. -/
def exSummary : Str :=
  "Patient has a rare syndrome. It affects the liver. Treatment is ongoing. Weather was sunny. Final note here.".toList

def exS0 : Str := "Patient has a rare syndrome.".toList
def exS1 : Str := "It affects the liver.".toList
def exS2 : Str := "Treatment is ongoing.".toList
def exS3 : Str := "Weather was sunny.".toList
def exS4 : Str := "Final note here.".toList

/-! ### Further definitions used in lemma and claim statements -/

/-- The texts of all level-2 nodes (children of children of the root). -/
def subTexts (ns : List Node) : List Str :=
  ns.flatMap (fun n => n.children.map Node.text)

/-- Whether some configured keyword occurs in the lower-cased sentence. -/
def sentenceMatches (kws : List Str) (s : Str) : Bool :=
  kws.any (fun k => containsSub k (lowerStr s))

/-- Adjacent characters that do not form a split boundary. -/
def okPair (c d : Char) : Prop := ¬(isPunct c = true ∧ isWs d = true)

/-- Reassemble split pieces and the separator runs between them. -/
def interleave : List Str → List Str → Str
  | [], _ => []
  | p :: _, [] => p
  | p :: ps, w :: ws => p ++ w ++ interleave ps ws

/-- Numeric value of a decimal digit character. -/
def dVal (c : Char) : Nat :=
  if c = '0' then 0 else if c = '1' then 1 else if c = '2' then 2 else
  if c = '3' then 3 else if c = '4' then 4 else if c = '5' then 5 else
  if c = '6' then 6 else if c = '7' then 7 else if c = '8' then 8 else 9

/-- Numeric value of a most-significant-first decimal digit string. -/
def valD (l : List Char) : Nat := l.foldl (fun a c => 10 * a + dVal c) 0

/-- The decimal digits of `n`, most significant first. -/
def decDigits (n : Nat) : List Char :=
  if n < 10 then [Nat.digitChar n]
  else decDigits (n / 10) ++ [Nat.digitChar (n % 10)]
termination_by n
decreasing_by
  exact Nat.div_lt_self (by omega) (by omega)

def noKwSentences : List Str := ["Hello there.", "Bye now."].map String.toList

def kwsA : List Str := ["patient", "drug"].map String.toList
def kwsB : List Str := ["drug", "patient"].map String.toList
def permSentences : List Str := ["A patient came.", "No match."].map String.toList

/-- The texts of every node below the root: the root's children (topic nodes
and the catch-all node) and their children. -/
def levelTexts (root : Node) : List Str :=
  root.children.flatMap (fun c => c.text :: c.children.map Node.text)

def exNode0 : Node :=
  Node.mk "node-0" exS0
    [Node.mk "node-0-sub-0" exS1 [], Node.mk "node-0-sub-1" exS2 [],
     Node.mk "node-0-sub-2" exS3 []]

def dupSummary : Str :=
  "Patient zero. Alpha beta. Gamma delta. Epsilon zeta. Dup dup. Dup dup.".toList

def dupX : Str := "Dup dup.".toList

/-! ### Used-set lemmas -/

theorem addUsed_mem (used : List Str) (s x : Str) :
    x ∈ addUsed used s ↔ x = s ∨ x ∈ used := by
  unfold addUsed
  split
  · constructor
    · exact fun h => Or.inr h
    · rintro (rfl | h) <;> assumption
  · simp [List.mem_cons]

theorem addUsed_nodup (used : List Str) (s : Str) (h : used.Nodup) :
    (addUsed used s).Nodup := by
  unfold addUsed
  split
  · exact h
  · exact List.Nodup.cons (by assumption) h

/-! ### Sub-node assignment lemmas -/

theorem assignSubs_texts_sublist (i : Nat) (ss : List Str) :
    ∀ used cnt, ((assignSubs i ss used cnt).1.map Node.text).Sublist ss := by
  induction ss with
  | nil => intro used cnt; simp [assignSubs]
  | cons s ss ih =>
    intro used cnt
    simp only [assignSubs]
    split
    · simpa [Node.text] using List.Sublist.cons₂ s (ih (addUsed used s) (cnt + 1))
    · exact List.Sublist.cons s (ih used cnt)

theorem assignSubs_used_mem (i : Nat) (ss : List Str) :
    ∀ used cnt x, x ∈ (assignSubs i ss used cnt).2 ↔
      x ∈ used ∨ x ∈ (assignSubs i ss used cnt).1.map Node.text := by
  induction ss with
  | nil => intro used cnt x; simp [assignSubs]
  | cons s ss ih =>
    intro used cnt x
    simp only [assignSubs]
    split
    · simp only [List.map_cons, Node.text, List.mem_cons]
      rw [ih (addUsed used s) (cnt + 1) x, addUsed_mem]
      tauto
    · rw [ih used cnt x]

theorem assignSubs_used_sub (i : Nat) (ss : List Str) (used : List Str) (cnt : Nat) :
    ∀ x ∈ used, x ∈ (assignSubs i ss used cnt).2 := by
  intro x hx
  exact (assignSubs_used_mem i ss used cnt x).mpr (Or.inl hx)

theorem assignSubs_texts_not_used (i : Nat) (ss : List Str) :
    ∀ used cnt x, x ∈ (assignSubs i ss used cnt).1.map Node.text → x ∉ used := by
  induction ss with
  | nil => intro used cnt x h; simp [assignSubs] at h
  | cons s ss ih =>
    intro used cnt x h
    simp only [assignSubs] at h
    revert h
    split
    · simp only [List.map_cons, Node.text, List.mem_cons]
      rintro (rfl | h)
      · exact fun hx => (by assumption : x ∉ used ∧ cnt < 3).1 hx
      · intro hx
        exact ih (addUsed used s) (cnt + 1) x h ((addUsed_mem used s x).mpr (Or.inr hx))
    · exact ih used cnt x

theorem assignSubs_texts_nodup (i : Nat) (ss : List Str) :
    ∀ used cnt, ((assignSubs i ss used cnt).1.map Node.text).Nodup := by
  induction ss with
  | nil => intro used cnt; simp [assignSubs]
  | cons s ss ih =>
    intro used cnt
    simp only [assignSubs]
    split
    · simp only [List.map_cons, Node.text]
      refine List.Nodup.cons ?_ (ih (addUsed used s) (cnt + 1))
      intro hmem
      exact assignSubs_texts_not_used i ss (addUsed used s) (cnt + 1) s hmem
        ((addUsed_mem used s s).mpr (Or.inl rfl))
    · exact ih used cnt

theorem assignSubs_used_nodup (i : Nat) (ss : List Str) :
    ∀ used cnt, used.Nodup → (assignSubs i ss used cnt).2.Nodup := by
  induction ss with
  | nil => intro used cnt h; simpa [assignSubs] using h
  | cons s ss ih =>
    intro used cnt h
    simp only [assignSubs]
    split
    · exact ih (addUsed used s) (cnt + 1) (addUsed_nodup used s h)
    · exact ih used cnt h

theorem assignSubs_used_from (i : Nat) (ss : List Str) :
    ∀ used cnt x, x ∈ (assignSubs i ss used cnt).2 → x ∈ used ∨ x ∈ ss := by
  intro used cnt x h
  rcases (assignSubs_used_mem i ss used cnt x).mp h with h' | h'
  · exact Or.inl h'
  · exact Or.inr ((assignSubs_texts_sublist i ss used cnt).mem h')

theorem assignSubs_ids (i : Nat) (ss : List Str) :
    ∀ used cnt, (assignSubs i ss used cnt).1.map Node.id =
      (List.range' cnt (assignSubs i ss used cnt).1.length).map (subId i) := by
  induction ss with
  | nil => intro used cnt; simp [assignSubs]
  | cons s ss ih =>
    intro used cnt
    simp only [assignSubs]
    split
    · simp only [List.map_cons, Node.id, List.length_cons, List.range'_succ]
      rw [ih (addUsed used s) (cnt + 1)]
    · exact ih used cnt

theorem assignSubs_length (i : Nat) (ss : List Str) :
    ∀ used cnt, (assignSubs i ss used cnt).1.length ≤ 3 - cnt := by
  induction ss with
  | nil => intro used cnt; simp [assignSubs]
  | cons s ss ih =>
    intro used cnt
    simp only [assignSubs]
    split
    · have h3 : cnt < 3 := (by assumption : s ∉ used ∧ cnt < 3).2
      have := ih (addUsed used s) (cnt + 1)
      simp only [List.length_cons]
      omega
    · exact ih used cnt

@[simp] theorem Node.id_mk (i : String) (t : Str) (c : List Node) :
    (Node.mk i t c).id = i := rfl

@[simp] theorem Node.text_mk (i : String) (t : Str) (c : List Node) :
    (Node.mk i t c).text = t := rfl

@[simp] theorem Node.children_mk (i : String) (t : Str) (c : List Node) :
    (Node.mk i t c).children = c := rfl

theorem assignSubs_leaves (i : Nat) (ss : List Str) :
    ∀ used cnt n, n ∈ (assignSubs i ss used cnt).1 → n.children = [] := by
  induction ss with
  | nil => intro used cnt n h; simp [assignSubs] at h
  | cons s ss ih =>
    intro used cnt n h
    simp only [assignSubs] at h
    revert h
    split
    · simp only [List.mem_cons]
      rintro (rfl | h)
      · rfl
      · exact ih (addUsed used s) (cnt + 1) n h
    · exact ih used cnt n

/-! ### Topic-loop lemmas -/

theorem buildTopics_texts (ss : List Str) :
    ∀ tps i used, (buildTopics ss tps i used).1.map Node.text = tps := by
  intro tps
  induction tps with
  | nil => intro i used; simp [buildTopics]
  | cons t ts ih =>
    intro i used
    simp only [buildTopics, List.map_cons, Node.text]
    rw [ih]

theorem buildTopics_used_sub (ss : List Str) :
    ∀ tps i used x, x ∈ used → x ∈ (buildTopics ss tps i used).2 := by
  intro tps
  induction tps with
  | nil => intro i used x h; simpa [buildTopics] using h
  | cons t ts ih =>
    intro i used x h
    simp only [buildTopics]
    refine ih (i + 1) _ x ?_
    refine assignSubs_used_sub i ss _ 0 x ?_
    exact (addUsed_mem used t x).mpr (Or.inr h)

theorem buildTopics_used_mem (ss : List Str) :
    ∀ tps i used x, x ∈ (buildTopics ss tps i used).2 ↔
      x ∈ used ∨ x ∈ tps ∨ x ∈ subTexts (buildTopics ss tps i used).1 := by
  intro tps
  induction tps with
  | nil => intro i used x; simp [buildTopics, subTexts]
  | cons t ts ih =>
    intro i used x
    simp only [buildTopics, subTexts, List.flatMap_cons, Node.children]
    rw [ih (i + 1)]
    rw [assignSubs_used_mem i ss (addUsed used t) 0 x]
    rw [addUsed_mem used t x]
    simp only [List.mem_cons, List.mem_append, subTexts]
    tauto

theorem buildTopics_subs_not_used (ss : List Str) :
    ∀ tps i used x, x ∈ subTexts (buildTopics ss tps i used).1 → x ∉ used := by
  intro tps
  induction tps with
  | nil => intro i used x h; simp [buildTopics, subTexts] at h
  | cons t ts ih =>
    intro i used x h
    simp only [buildTopics, subTexts, List.flatMap_cons, Node.children,
      List.mem_append] at h
    rcases h with h | h
    · intro hx
      exact assignSubs_texts_not_used i ss (addUsed used t) 0 x h
        ((addUsed_mem used t x).mpr (Or.inr hx))
    · intro hx
      refine ih (i + 1) _ x h ?_
      refine assignSubs_used_sub i ss _ 0 x ?_
      exact (addUsed_mem used t x).mpr (Or.inr hx)

theorem buildTopics_subs_nodup (ss : List Str) :
    ∀ tps i used, (subTexts (buildTopics ss tps i used).1).Nodup := by
  intro tps
  induction tps with
  | nil => intro i used; simp [buildTopics, subTexts]
  | cons t ts ih =>
    intro i used
    simp only [buildTopics, subTexts, List.flatMap_cons, Node.children]
    refine List.Nodup.append (assignSubs_texts_nodup i ss _ 0) (ih (i + 1) _) ?_
    intro y hy hy'
    have hyu : y ∈ (assignSubs i ss (addUsed used t) 0).2 :=
      (assignSubs_used_mem i ss _ 0 y).mpr (Or.inr hy)
    exact buildTopics_subs_not_used ss ts (i + 1) _ y hy' hyu

theorem buildTopics_used_nodup (ss : List Str) :
    ∀ tps i used, used.Nodup → (buildTopics ss tps i used).2.Nodup := by
  intro tps
  induction tps with
  | nil => intro i used h; simpa [buildTopics] using h
  | cons t ts ih =>
    intro i used h
    simp only [buildTopics]
    exact ih (i + 1) _ (assignSubs_used_nodup i ss _ 0 (addUsed_nodup used t h))

theorem buildTopics_subs_from (ss : List Str) :
    ∀ tps i used x, x ∈ subTexts (buildTopics ss tps i used).1 → x ∈ ss := by
  intro tps
  induction tps with
  | nil => intro i used x h; simp [buildTopics, subTexts] at h
  | cons t ts ih =>
    intro i used x h
    simp only [buildTopics, subTexts, List.flatMap_cons, Node.children,
      List.mem_append] at h
    rcases h with h | h
    · exact (assignSubs_texts_sublist i ss _ 0).mem h
    · exact ih (i + 1) _ x h

theorem buildTopics_used_from (ss : List Str) (tps : List Str) (i : Nat)
    (used : List Str) (x : Str) (h : x ∈ (buildTopics ss tps i used).2) :
    x ∈ used ∨ x ∈ tps ∨ x ∈ ss := by
  rcases (buildTopics_used_mem ss tps i used x).mp h with h' | h' | h'
  · exact Or.inl h'
  · exact Or.inr (Or.inl h')
  · exact Or.inr (Or.inr (buildTopics_subs_from ss tps i used x h'))

theorem buildTopics_get (ss : List Str) :
    ∀ tps i used j n, (buildTopics ss tps i used).1.get? j = some n →
      n.id = topicId (i + j) ∧ tps.get? j = some n.text ∧
        ∃ u, n.children = (assignSubs (i + j) ss u 0).1 := by
  intro tps
  induction tps with
  | nil => intro i used j n h; simp [buildTopics] at h
  | cons t ts ih =>
    intro i used j n h
    simp only [buildTopics] at h
    match j with
    | 0 =>
      simp only [List.get?] at h
      cases h
      refine ⟨rfl, rfl, ⟨addUsed used t, rfl⟩⟩
    | j + 1 =>
      simp only [List.get?] at h
      have := ih (i + 1) _ j n h
      rw [show i + 1 + j = i + (j + 1) by omega] at this
      exact ⟨this.1, this.2.1, this.2.2⟩

theorem buildTopics_leaves (ss : List Str) :
    ∀ tps i used n m, n ∈ (buildTopics ss tps i used).1 → m ∈ n.children →
      m.children = [] := by
  intro tps
  induction tps with
  | nil => intro i used n m h; simp [buildTopics] at h
  | cons t ts ih =>
    intro i used n m h hm
    simp only [buildTopics, List.mem_cons] at h
    rcases h with rfl | h
    · exact assignSubs_leaves i ss _ 0 m hm
    · exact ih (i + 1) _ n m h hm

/-! ### Catch-all collection lemmas -/

theorem collectOther_texts (used : List Str) :
    ∀ ss k, (collectOtherGo used ss k).map Node.text =
      ss.filter (fun x => decide (x ∉ used)) := by
  intro ss
  induction ss with
  | nil => intro k; simp [collectOtherGo]
  | cons s ss ih =>
    intro k
    by_cases h : s ∈ used
    · simp [collectOtherGo, h, List.filter_cons, ih k]
    · simp [collectOtherGo, h, List.filter_cons, ih (k + 1)]

theorem collectOther_ids (used : List Str) :
    ∀ ss k, (collectOtherGo used ss k).map Node.id =
      (List.range' k (collectOtherGo used ss k).length).map otherId := by
  intro ss
  induction ss with
  | nil => intro k; simp [collectOtherGo]
  | cons s ss ih =>
    intro k
    by_cases h : s ∈ used
    · simp only [collectOtherGo, h, not_true_eq_false, if_false]
      exact ih k
    · simp only [collectOtherGo, h, not_false_eq_true, if_true, List.map_cons,
        Node.id_mk, List.length_cons, List.range'_succ]
      rw [ih (k + 1)]

theorem collectOther_leaves (used : List Str) :
    ∀ ss k n, n ∈ collectOtherGo used ss k → n.children = [] := by
  intro ss
  induction ss with
  | nil => intro k n h; simp [collectOtherGo] at h
  | cons s ss ih =>
    intro k n h
    by_cases hs : s ∈ used
    · simp only [collectOtherGo, hs, not_true_eq_false, if_false] at h
      exact ih k n h
    · simp only [collectOtherGo, hs, not_false_eq_true, if_true,
        List.mem_cons] at h
      rcases h with rfl | h
      · rfl
      · exact ih (k + 1) n h

theorem collectOther_nil_iff (used : List Str) (ss : List Str) (k : Nat) :
    collectOtherGo used ss k = [] ↔ ∀ x ∈ ss, x ∈ used := by
  constructor
  · intro h x hx
    by_contra hnx
    have := collectOther_texts used ss k
    rw [h] at this
    have hx' : x ∈ ss.filter (fun x => decide (x ∉ used)) :=
      List.mem_filter.mpr ⟨hx, by simpa using hnx⟩
    rw [← this] at hx'
    simp at hx'
  · intro h
    have := collectOther_texts used ss k
    have hf : ss.filter (fun x => decide (x ∉ used)) = [] := by
      rw [List.filter_eq_nil_iff]
      intro a ha
      simpa using h a ha
    rw [hf] at this
    exact List.map_eq_nil_iff.mp this

/-! ### Topic-selector lemmas -/

theorem innerKeywordScan_eq (s : Str) (topics : List Str) :
    ∀ kws, innerKeywordScan s topics kws =
      if sentenceMatches kws s = true ∧ s ∉ topics then topics ++ [s]
      else topics := by
  intro kws
  induction kws with
  | nil => simp [innerKeywordScan, sentenceMatches]
  | cons k ks ih =>
    simp only [innerKeywordScan, sentenceMatches, List.any_cons]
    by_cases hk : containsSub k (lowerStr s) = true
    · by_cases hs : s ∈ topics
      · simp [hk, hs, ih, sentenceMatches]
      · simp [hk, hs]
    · simp only [Bool.not_eq_true] at hk
      simp [hk, ih, sentenceMatches]

theorem scanForTopics_sub (kws : List Str) :
    ∀ ss topics x, x ∈ scanForTopics kws topics ss → x ∈ topics ∨ x ∈ ss := by
  intro ss
  induction ss with
  | nil => intro topics x h; exact Or.inl h
  | cons s ss ih =>
    intro topics x h
    rcases ih (innerKeywordScan s topics kws) x h with h' | h'
    · rw [innerKeywordScan_eq] at h'
      by_cases hc : sentenceMatches kws s = true ∧ s ∉ topics
      · rw [if_pos hc] at h'
        rcases List.mem_append.mp h' with h'' | h''
        · exact Or.inl h''
        · simp only [List.mem_singleton] at h''
          exact Or.inr (h'' ▸ List.mem_cons_self s ss)
      · rw [if_neg hc] at h'
        exact Or.inl h'
    · exact Or.inr (List.mem_cons_of_mem s h')

theorem scanForTopics_nodup (kws : List Str) :
    ∀ ss topics, topics.Nodup → (scanForTopics kws topics ss).Nodup := by
  intro ss
  induction ss with
  | nil => intro topics h; exact h
  | cons s ss ih =>
    intro topics h
    refine ih (innerKeywordScan s topics kws) ?_
    rw [innerKeywordScan_eq]
    by_cases hc : sentenceMatches kws s = true ∧ s ∉ topics
    · rw [if_pos hc]
      simp [List.nodup_append, h, hc.2]
    · rw [if_neg hc]
      exact h

theorem scanForTopics_perm (kws kws' : List Str) (hp : kws.Perm kws') :
    ∀ ss topics, scanForTopics kws topics ss = scanForTopics kws' topics ss := by
  have hmatch : ∀ s, sentenceMatches kws s = sentenceMatches kws' s := by
    intro s
    unfold sentenceMatches
    by_cases h : ∃ k ∈ kws, containsSub k (lowerStr s) = true
    · have h' : ∃ k ∈ kws', containsSub k (lowerStr s) = true := by
        rcases h with ⟨k, hk, hc⟩
        exact ⟨k, hp.mem_iff.mp hk, hc⟩
      rw [List.any_eq_true.mpr h, List.any_eq_true.mpr h']
    · have h' : ¬∃ k ∈ kws', containsSub k (lowerStr s) = true := by
        rintro ⟨k, hk, hc⟩
        exact h ⟨k, hp.mem_iff.mpr hk, hc⟩
      rw [List.any_eq_false.mpr, List.any_eq_false.mpr]
      · intro k hk hc
        exact h' ⟨k, hk, hc⟩
      · intro k hk hc
        exact h ⟨k, hk, hc⟩
  intro ss
  induction ss with
  | nil => intro topics; rfl
  | cons s ss ih =>
    intro topics
    simp only [scanForTopics]
    rw [innerKeywordScan_eq, innerKeywordScan_eq, hmatch s, ih]

theorem scanForTopics_no_match (kws : List Str) :
    ∀ ss topics, (∀ s ∈ ss, sentenceMatches kws s = false) →
      scanForTopics kws topics ss = topics := by
  intro ss
  induction ss with
  | nil => intro topics _; rfl
  | cons s ss ih =>
    intro topics h
    simp only [scanForTopics]
    rw [innerKeywordScan_eq]
    have hs : sentenceMatches kws s = false := h s (List.mem_cons_self s ss)
    rw [if_neg (by simp [hs])]
    exact ih topics (fun x hx => h x (List.mem_cons_of_mem s hx))

theorem computeMainTopics_sub (kws ss : List Str) :
    ∀ x ∈ computeMainTopics kws ss, x ∈ ss := by
  intro x hx
  unfold computeMainTopics at hx
  simp only at hx
  split at hx
  · exact (List.take_sublist _ ss).mem hx
  · rcases scanForTopics_sub kws ss [] x hx with h | h
    · simp at h
    · exact h

theorem computeMainTopics_nodup (kws ss : List Str) (h : ss.Nodup) :
    (computeMainTopics kws ss).Nodup := by
  unfold computeMainTopics
  simp only
  split
  · exact h.sublist (List.take_sublist _ ss)
  · exact scanForTopics_nodup kws ss [] List.nodup_nil

/-! ### Sentence-splitter structure -/

theorem headIsWs_true_iff (l : Str) :
    headIsWs l = true ↔ ∃ d t, l = d :: t ∧ isWs d = true := by
  cases l <;> simp [headIsWs]

theorem rawSplitGo_false_cons (acc : Str) (c : Char) (rest : Str) :
    rawSplitGo false acc (c :: rest) =
      if isPunct c && headIsWs rest then
        (acc.reverse ++ [c]) :: rawSplitGo true [] rest
      else rawSplitGo false (c :: acc) rest := by
  simp [rawSplitGo]

theorem rawSplitGo_skip (rest : Str) :
    ∃ w rest2 : Str,
      rest = w ++ rest2 ∧ (∀ c ∈ w, isWs c = true) ∧
      (∀ c, rest2.head? = some c → isWs c = false) ∧
      rawSplitGo true [] rest = rawSplitGo false [] rest2 ∧
      rest2.length ≤ rest.length := by
  induction rest with
  | nil =>
    exact ⟨[], [], rfl, by simp, by simp, rfl, Nat.le_refl _⟩
  | cons c rest ih =>
    by_cases hc : isWs c = true
    · rcases ih with ⟨w, rest2, heq, hws, hhd, hgo, hlen⟩
      refine ⟨c :: w, rest2, by rw [List.cons_append, ← heq], ?_, hhd, ?_, ?_⟩
      · intro d hd
        rcases List.mem_cons.mp hd with rfl | hd
        · exact hc
        · exact hws d hd
      · rw [show rawSplitGo true [] (c :: rest) = rawSplitGo true [] rest by
          simp [rawSplitGo, hc]]
        exact hgo
      · simp only [List.length_cons]
        omega
    · refine ⟨[], c :: rest, rfl, by simp, ?_, ?_, Nat.le_refl _⟩
      · intro d hd
        simp only [List.head?_cons, Option.some.injEq] at hd
        subst hd
        simpa using hc
      · simp [rawSplitGo, hc]
theorem rawSplitGo_false_nil (acc : Str) (hch : List.Chain' okPair acc.reverse) :
    ∃ ws : List Str,
      rawSplitGo false acc [] ≠ [] ∧
      ws.length + 1 = (rawSplitGo false acc []).length ∧
      interleave (rawSplitGo false acc []) ws = acc.reverse ++ [] ∧
      (∀ w ∈ ws, w ≠ [] ∧ ∀ c ∈ w, isWs c = true) ∧
      (∀ p ∈ (rawSplitGo false acc []).dropLast,
        ∃ q c, p = q ++ [c] ∧ isPunct c = true) ∧
      (∀ p ∈ (rawSplitGo false acc []).tail, ∀ c, p.head? = some c →
        isWs c = false) ∧
      (∀ p ∈ rawSplitGo false acc [], List.Chain' okPair p) ∧
      (∃ t, (rawSplitGo false acc []).head? = some (acc.reverse ++ t) ∧
        (∀ c, t.head? = some c → ([] : Str).head? = some c)) := by
  refine ⟨[], ?_, ?_, ?_, ?_, ?_, ?_, ?_, ⟨[], ?_, ?_⟩⟩
  · simp [rawSplitGo]
  · simp [rawSplitGo]
  · simp [rawSplitGo, interleave]
  · simp
  · simp [rawSplitGo]
  · simp [rawSplitGo]
  · intro p hp
    simp only [rawSplitGo, List.mem_singleton] at hp
    subst hp
    exact hch
  · simp [rawSplitGo]
  · simp

theorem rawSplitGo_false_spec (n : Nat) :
    ∀ rest acc : Str, rest.length ≤ n →
    List.Chain' okPair (acc.reverse ++ rest.take 1) →
    ∃ ws : List Str,
      rawSplitGo false acc rest ≠ [] ∧
      ws.length + 1 = (rawSplitGo false acc rest).length ∧
      interleave (rawSplitGo false acc rest) ws = acc.reverse ++ rest ∧
      (∀ w ∈ ws, w ≠ [] ∧ ∀ c ∈ w, isWs c = true) ∧
      (∀ p ∈ (rawSplitGo false acc rest).dropLast,
        ∃ q c, p = q ++ [c] ∧ isPunct c = true) ∧
      (∀ p ∈ (rawSplitGo false acc rest).tail, ∀ c, p.head? = some c →
        isWs c = false) ∧
      (∀ p ∈ rawSplitGo false acc rest, List.Chain' okPair p) ∧
      (∃ t, (rawSplitGo false acc rest).head? = some (acc.reverse ++ t) ∧
        (∀ c, t.head? = some c → rest.head? = some c)) := by
  induction n with
  | zero =>
    intro rest acc hlen hch
    have hrest : rest = [] := List.length_eq_zero.mp (Nat.le_zero.mp hlen)
    subst hrest
    exact rawSplitGo_false_nil acc (by simpa using hch)
  | succ n ih =>
    intro rest acc hlen hch
    match rest with
    | [] => exact rawSplitGo_false_nil acc (by simpa using hch)
    | c :: rest' =>
      rw [rawSplitGo_false_cons]
      by_cases hb : (isPunct c && headIsWs rest') = true
      · -- boundary: emit the piece `acc.reverse ++ [c]` and skip the run
        rw [if_pos hb]
        have hb1 : isPunct c = true ∧ headIsWs rest' = true := by
          simpa [Bool.and_eq_true] using hb
        obtain ⟨w, rest2, heq, hw_ws, hr2hd, hgo, hlen2⟩ := rawSplitGo_skip rest'
        have hw_ne : w ≠ [] := by
          intro h0
          subst h0
          simp only [List.nil_append] at heq
          obtain ⟨d, t, hdt, hd⟩ := (headIsWs_true_iff rest').mp hb1.2
          rw [← heq] at hr2hd
          rw [hdt] at hr2hd
          have := hr2hd d (by simp)
          rw [this] at hd
          exact Bool.false_ne_true hd
        have hch2 : List.Chain' okPair (([] : Str).reverse ++ rest2.take 1) := by
          match rest2 with
          | [] => simp [List.chain'_nil]
          | d :: t => simp [List.chain'_singleton]
        have hlen2' : rest2.length ≤ n := by
          have h1 : rest'.length + 1 ≤ n + 1 := by
            simpa [List.length_cons] using hlen
          omega
        obtain ⟨ws₂, hne₂, hlen₂, hint₂, hwcond₂, hdrop₂, htail₂, hchain₂,
          t₂, hhead₂, hteq₂⟩ := ih rest2 [] hlen2' hch2
        rw [hgo]
        have hch1 : List.Chain' okPair (acc.reverse ++ [c]) := by
          simpa using hch
        refine ⟨w :: ws₂, by simp, ?_, ?_, ?_, ?_, ?_, ?_, ⟨[c], ?_, ?_⟩⟩
        · simp only [List.length_cons]
          omega
        · -- reassembly
          match hps : rawSplitGo false [] rest2 with
          | p₂ :: ps₂' =>
            rw [hps] at hint₂
            simp only [interleave]
            rw [hint₂]
            simp [heq, List.append_assoc]
          | [] => exact absurd hps hne₂
        · intro w' hw'
          rcases List.mem_cons.mp hw' with rfl | hw'
          · exact ⟨hw_ne, hw_ws⟩
          · exact hwcond₂ w' hw'
        · intro p hp
          match hps : rawSplitGo false [] rest2 with
          | p₂ :: ps₂' =>
            rw [hps] at hp
            simp only [List.dropLast_cons₂, List.mem_cons] at hp
            rcases hp with rfl | hp
            · exact ⟨acc.reverse, c, rfl, hb1.1⟩
            · refine hdrop₂ p ?_
              rw [hps]
              simpa using hp
          | [] => exact absurd hps hne₂
        · intro p hp c' hc'
          simp only [List.tail_cons] at hp
          match hps : rawSplitGo false [] rest2 with
          | p₂ :: ps₂' =>
            rw [hps] at hp
            rcases List.mem_cons.mp hp with rfl | hp
            · -- p is the head piece of the recursive result
              rw [hps] at hhead₂
              simp only [List.head?_cons, Option.some.injEq, List.nil_append]
                at hhead₂
              subst hhead₂
              have := hteq₂ c' hc'
              exact hr2hd c' this
            · refine htail₂ p ?_ c' hc'
              rw [hps]
              simpa using hp
          | [] => exact absurd hps hne₂
        · intro p hp
          rcases List.mem_cons.mp hp with rfl | hp
          · exact hch1
          · exact hchain₂ p hp
        · simp
        · intro c' hc'
          simp only [List.head?_cons, Option.some.injEq] at hc'
          subst hc'
          simp
      · -- not a boundary: accumulate `c`
        rw [if_neg hb]
        have hok : ∀ d, rest'.head? = some d → okPair c d := by
          intro d hd
          intro hcd
          apply hb
          rw [Bool.and_eq_true]
          refine ⟨hcd.1, ?_⟩
          match rest' with
          | [] => simp at hd
          | e :: t =>
            simp only [List.head?_cons, Option.some.injEq] at hd
            subst hd
            simpa [headIsWs] using hcd.2
        have hch' : List.Chain' okPair ((c :: acc).reverse ++ rest'.take 1) := by
          simp only [List.reverse_cons]
          have hch1 : List.Chain' okPair (acc.reverse ++ [c]) := by
            simpa using hch
          match rest' with
          | [] => simpa using hch1
          | d :: t =>
            rw [show List.take 1 (d :: t) = [d] from rfl]
            refine List.Chain'.append hch1 (List.chain'_singleton d) ?_
            intro x hx y hy
            rw [List.getLast?_concat] at hx
            simp only [Option.mem_def, Option.some.injEq] at hx
            simp only [Option.mem_def, List.head?_cons, Option.some.injEq] at hy
            subst hx
            subst hy
            exact hok d (by simp)
        have hlen' : rest'.length ≤ n := by
          have h1 : rest'.length + 1 ≤ n + 1 := by
            simpa [List.length_cons] using hlen
          omega
        obtain ⟨ws', hne', hlen'', hint', hwcond', hdrop', htail', hchain',
          t', hhead', hteq'⟩ := ih rest' (c :: acc) hlen' hch'
        refine ⟨ws', hne', hlen'', ?_, hwcond', hdrop', htail', hchain',
          ⟨c :: t', ?_, ?_⟩⟩
        · rw [hint']
          simp [List.append_assoc]
        · rw [hhead']
          simp [List.append_assoc]
        · intro c' hc'
          simp only [List.head?_cons, Option.some.injEq] at hc' ⊢
          exact hc'

/-! ### Stripping lemmas -/

theorem dropWhile_head_false (p : Char → Bool) :
    ∀ (l : Str) (c : Char), (l.dropWhile p).head? = some c → p c = false := by
  intro l
  induction l with
  | nil => intro c h; simp [List.dropWhile_nil] at h
  | cons a l ih =>
    intro c h
    by_cases hp : p a = true
    · rw [List.dropWhile_cons, if_pos hp] at h
      exact ih c h
    · rw [List.dropWhile_cons, if_neg hp] at h
      simp only [List.head?_cons, Option.some.injEq] at h
      subst h
      simpa using hp

theorem dropWhile_sfx (p : Char → Bool) :
    ∀ l : Str, ∃ t : Str, t ++ l.dropWhile p = l := by
  intro l
  induction l with
  | nil => exact ⟨[], rfl⟩
  | cons a l ih =>
    by_cases h : p a = true
    · rcases ih with ⟨t, ht⟩
      exact ⟨a :: t, by rw [List.dropWhile_cons, if_pos h, List.cons_append, ht]⟩
    · exact ⟨[], by rw [List.dropWhile_cons, if_neg h, List.nil_append]⟩

theorem stripChars_getLast (l : Str) (c : Char)
    (h : (stripChars l).getLast? = some c) : isWs c = false := by
  unfold stripChars at h
  rw [List.getLast?_reverse] at h
  exact dropWhile_head_false isWs _ c h

theorem stripChars_head (l : Str) (c : Char)
    (h : (stripChars l).head? = some c) : isWs c = false := by
  obtain ⟨t, ht⟩ := dropWhile_sfx isWs ((l.dropWhile isWs).reverse)
  have ha : ((l.dropWhile isWs).reverse.dropWhile isWs).reverse ++ t.reverse =
      l.dropWhile isWs := by
    rw [← List.reverse_append, ht, List.reverse_reverse]
  refine dropWhile_head_false isWs l c ?_
  rw [← ha]
  unfold stripChars at h
  cases hh : ((l.dropWhile isWs).reverse.dropWhile isWs).reverse with
  | nil => rw [hh] at h; simp at h
  | cons x xs =>
    rw [hh] at h
    simp only [List.head?_cons, Option.some.injEq] at h
    subst h
    simp

/-! ### Injectivity of the decimal id indices -/

theorem dVal_digitChar (d : Nat) (h : d < 10) : dVal (Nat.digitChar d) = d := by
  interval_cases d <;> rfl

theorem toDigitsCore_spec :
    ∀ (fuel n : Nat) (ds : List Char), n < fuel →
      Nat.toDigitsCore 10 fuel n ds = decDigits n ++ ds := by
  intro fuel
  induction fuel with
  | zero => intro n ds h; omega
  | succ fuel ih =>
    intro n ds h
    simp only [Nat.toDigitsCore]
    by_cases h10 : n / 10 = 0
    · rw [if_pos h10]
      have hn10 : n < 10 := by omega
      rw [decDigits, if_pos hn10, Nat.mod_eq_of_lt hn10]
      rfl
    · rw [if_neg h10]
      have hge : 10 ≤ n := by
        by_contra hc
        exact h10 (Nat.div_eq_of_lt (by omega))
      have hlt : n / 10 < fuel := by
        have := Nat.div_lt_self (show 0 < n by omega) (show 1 < 10 by omega)
        omega
      rw [ih (n / 10) _ hlt]
      conv_rhs => rw [decDigits]
      rw [if_neg (show ¬n < 10 by omega)]
      simp [List.append_assoc]

theorem valD_append_digit (l : List Char) (c : Char) :
    valD (l ++ [c]) = 10 * valD l + dVal c := by
  unfold valD
  rw [List.foldl_append]
  rfl

theorem valD_decDigits (n : Nat) : valD (decDigits n) = n := by
  induction n using Nat.strong_induction_on with
  | _ n ih =>
    rw [decDigits]
    by_cases h : n < 10
    · rw [if_pos h]
      show valD [Nat.digitChar n] = n
      unfold valD
      simp only [List.foldl_cons, List.foldl_nil]
      rw [Nat.mul_zero, Nat.zero_add, dVal_digitChar n h]
    · rw [if_neg h]
      rw [valD_append_digit]
      rw [ih (n / 10) (Nat.div_lt_self (by omega) (by omega))]
      rw [dVal_digitChar (n % 10) (Nat.mod_lt _ (by omega))]
      omega

theorem decDigits_inj {m n : Nat} (h : decDigits m = decDigits n) : m = n := by
  have hm := valD_decDigits m
  rw [h, valD_decDigits n] at hm
  omega

theorem natRepr_inj {m n : Nat} (h : Nat.repr m = Nat.repr n) : m = n := by
  unfold Nat.repr Nat.toDigits at h
  rw [toDigitsCore_spec (m + 1) m [] (Nat.lt_succ_self m)] at h
  rw [toDigitsCore_spec (n + 1) n [] (Nat.lt_succ_self n)] at h
  simp only [List.append_nil] at h
  have hdata := congrArg String.data h
  simp only [List.asString] at hdata
  exact decDigits_inj hdata

theorem otherId_inj {j k : Nat} (h : otherId j = otherId k) : j = k := by
  unfold otherId at h
  have hdata := congrArg String.data h
  simp only [String.data_append] at hdata
  have := List.append_cancel_left hdata
  refine natRepr_inj ?_
  exact String.ext this

theorem subId_inj_right (i : Nat) {j k : Nat} (h : subId i j = subId i k) :
    j = k := by
  unfold subId at h
  have hdata := congrArg String.data h
  simp only [String.data_append] at hdata
  have h1 := List.append_cancel_left hdata
  exact natRepr_inj (String.ext h1)

/-! ### Cardinality of the used-set versus the sentence list -/

theorem used_length_lt (ss used : List Str) (hn : used.Nodup)
    (hsub : ∀ x ∈ used, x ∈ ss) (hex : ∃ x ∈ ss, x ∉ used) :
    used.length < ss.length := by
  rcases hex with ⟨x, hx, hnx⟩
  have hss : used.toFinset ⊂ ss.toFinset := by
    constructor
    · intro a ha
      rw [List.mem_toFinset] at ha ⊢
      exact hsub a ha
    · intro hcon
      have := hcon (List.mem_toFinset.mpr hx)
      rw [List.mem_toFinset] at this
      exact hnx this
  calc used.length = used.toFinset.card := (List.toFinset_card_of_nodup hn).symm
    _ < ss.toFinset.card := Finset.card_lt_card hss
    _ ≤ ss.length := List.toFinset_card_le ss

/-! ### Shape of the root's children -/

theorem generate_children (text : Str) :
    (generate_mindmap_data text).children =
      if ∃ x ∈ splitSentences text,
          x ∉ (buildTopics (splitSentences text)
            (computeMainTopics medical_keywords (splitSentences text)) 0 []).2 then
        (buildTopics (splitSentences text)
          (computeMainTopics medical_keywords (splitSentences text)) 0 []).1 ++
          [Node.mk "node-other" otherText
            (collectOtherGo
              (buildTopics (splitSentences text)
                (computeMainTopics medical_keywords (splitSentences text)) 0 []).2
              (splitSentences text) 0)]
      else
        (buildTopics (splitSentences text)
          (computeMainTopics medical_keywords (splitSentences text)) 0 []).1 := by
  simp only [generate_mindmap_data, Node.children_mk]
  set s := splitSentences text with hs
  set tps := computeMainTopics medical_keywords s with htps
  set built := buildTopics s tps 0 [] with hbuilt
  by_cases hex : ∃ x ∈ s, x ∉ built.2
  · rw [if_pos hex]
    have hlt : built.2.length < s.length := by
      refine used_length_lt s built.2 ?_ ?_ hex
      · exact buildTopics_used_nodup s tps 0 [] List.nodup_nil
      · intro x hx
        rcases buildTopics_used_from s tps 0 [] x hx with h | h | h
        · simp at h
        · exact computeMainTopics_sub medical_keywords s x h
        · exact h
    rw [if_pos hlt]
    have hne : collectOtherGo built.2 s 0 ≠ [] := by
      rw [Ne, collectOther_nil_iff]
      intro hall
      rcases hex with ⟨x, hx, hnx⟩
      exact hnx (hall x hx)
    rw [if_neg ?_]
    intro hc
    exact hne (List.isEmpty_iff.mp hc)
  · rw [if_neg hex]
    push_neg at hex
    have hnil : collectOtherGo built.2 s 0 = [] := by
      rw [collectOther_nil_iff]
      exact hex
    split
    · rw [hnil]
      simp
    · rfl

/-! ### Claim theorems -/

/-- C3: if sentence splitting yields zero sentences (e.g. empty or
whitespace-only summary), the function does not fail and the result is
exactly the root node with text "Medical Document Overview" and no children:
no topic nodes, no fallback topics, and no catch-all node. -/
theorem C3_empty_input (text : Str) (h : splitSentences text = []) :
    generate_mindmap_data text = Node.mk "root" rootText [] := by
  simp only [generate_mindmap_data]
  rw [h]
  rfl

theorem C3_empty_input_witness :
    splitSentences "   ".toList = [] ∧
      generate_mindmap_data "   ".toList = Node.mk "root" rootText [] :=
  ⟨by decide, C3_empty_input _ (by decide)⟩

/-- C8: the core pipeline is a deterministic function of the summary text:
two runs on equal inputs produce identical trees (same ids, texts, and
children order), with no other dependence. -/
theorem C8_deterministic (t u : Str) (h : t = u) :
    generate_mindmap_data t = generate_mindmap_data u := by
  rw [h]

theorem C8_deterministic_witness :
    exSummary = exSummary ∧
      generate_mindmap_data exSummary = generate_mindmap_data exSummary :=
  ⟨rfl, C8_deterministic exSummary exSummary rfl⟩

/-- C4: for every non-empty sentence sequence in which no sentence's
lower-cased form contains any configured keyword as a substring, the topic
list equals the first `min(3, n)` sentences in original order. -/
theorem C4_fallback (sentences : List Str) (h1 : sentences ≠ [])
    (h2 : ∀ s ∈ sentences, sentenceMatches medical_keywords s = false) :
    computeMainTopics medical_keywords sentences =
      sentences.take (min 3 sentences.length) := by
  simp only [computeMainTopics]
  rw [scanForTopics_no_match medical_keywords sentences [] h2]
  rw [if_pos ⟨rfl, h1⟩]

theorem C4_fallback_witness :
    noKwSentences ≠ [] ∧
      (∀ s ∈ noKwSentences, sentenceMatches medical_keywords s = false) ∧
      computeMainTopics medical_keywords noKwSentences =
        noKwSentences.take (min 3 noKwSentences.length) :=
  ⟨by decide, by decide, C4_fallback noKwSentences (by decide) (by decide)⟩

/-- C9: the selected topic list is invariant under any permutation of the
keyword list: whether a sentence becomes a topic depends only on whether some
keyword is a substring of its lower-cased form, never on which keyword
matches first. -/
theorem C9_keyword_perm (kws kws' : List Str) (hp : kws.Perm kws')
    (sentences : List Str) :
    computeMainTopics kws sentences = computeMainTopics kws' sentences := by
  simp only [computeMainTopics]
  rw [scanForTopics_perm kws kws' hp sentences []]

theorem C9_keyword_perm_witness :
    kwsA.Perm kwsB ∧
      computeMainTopics kwsA permSentences = computeMainTopics kwsB permSentences :=
  ⟨by decide, C9_keyword_perm kwsA kwsB (by decide) permSentences⟩

/-- C2 counterexample: on the spec's worked example the claim fails: node-0's
sub-node scan consumes the not-yet-created later topic "Treatment is
ongoing." as its second child, and node-1 then receives "Final note here.";
so node-0's children are not the claimed three and node-1's children are not
empty. -/
theorem C2_counterexample :
    ¬((splitSentences exSummary).length = 5 ∧
      computeMainTopics medical_keywords (splitSentences exSummary) =
        [exS0, exS2] ∧
      ((generate_mindmap_data exSummary).children.get? 0).map
        (fun n => n.children.map Node.text) = some [exS1, exS3, exS4] ∧
      ((generate_mindmap_data exSummary).children.get? 1).map
        (fun n => n.children.map Node.text) = some ([] : List Str) ∧
      ¬"node-other" ∈ (generate_mindmap_data exSummary).children.map Node.id) := by
  intro h
  have h3 := h.2.2.1
  have hval : ((generate_mindmap_data exSummary).children.get? 0).map
      (fun n => n.children.map Node.text) = some [exS1, exS2, exS3] := by decide
  rw [hval] at h3
  simp only [Option.some.injEq] at h3
  have : exS2 = exS3 := by
    have := congrArg (fun l => l.get? 1) h3
    simpa using this
  exact absurd this (by decide)

/-- C2 amended: on the worked example the pipeline yields 5 sentences and
topics ["Patient has a rare syndrome.", "Treatment is ongoing."] as claimed,
and node-other is absent; but node-0's children are exactly ["It affects the
liver.", "Treatment is ongoing.", "Weather was sunny."] (the sub-scan takes
the later topic sentence, which is not yet marked used), and node-1's
children are exactly ["Final note here."]. -/
theorem C2_example_actual :
    (splitSentences exSummary).length = 5 ∧
    computeMainTopics medical_keywords (splitSentences exSummary) =
      [exS0, exS2] ∧
    generate_mindmap_data exSummary =
      Node.mk "root" rootText
        [Node.mk "node-0" exS0
          [Node.mk "node-0-sub-0" exS1 [], Node.mk "node-0-sub-1" exS2 [],
           Node.mk "node-0-sub-2" exS3 []],
         Node.mk "node-1" exS2 [Node.mk "node-1-sub-0" exS4 []]] :=
  ⟨rfl, rfl, rfl⟩

/-- Every tree the generator produces has depth at most two: children of the
root's children are leaves, so `levelTexts` covers every non-root node. -/
theorem generate_two_levels (text : Str) :
    ∀ c ∈ (generate_mindmap_data text).children, ∀ d ∈ c.children,
      d.children = [] := by
  intro c hc d hd
  rw [generate_children] at hc
  split at hc
  · rcases List.mem_append.mp hc with h | h
    · exact buildTopics_leaves _ _ 0 [] c d h hd
    · simp only [List.mem_singleton] at h
      subst h
      simp only [Node.children_mk] at hd
      exact collectOther_leaves _ _ 0 d hd
  · exact buildTopics_leaves _ _ 0 [] c d hc hd

/-- C1 counterexample: on the spec's worked example, the sentence "Treatment
is ongoing." is the text of two different nodes (`node-0-sub-1` and
`node-1`), so it appears twice among the texts of the topic nodes, sub-nodes
and catch-all children — refuting "each sentence string occurs at most
once". -/
theorem C1_counterexample :
    (levelTexts (generate_mindmap_data exSummary)).count exS2 = 2 := by
  decide

/-- C1 amended: sentence duplication in the tree is limited to a topic
sentence also appearing as a sub-node of an earlier topic (and to repeated
input sentences, cf. C10).  When the sentence list has no duplicates, the
texts of all level-2 nodes (sub-nodes and catch-all children together) are
pairwise distinct, and the texts of the topic nodes are pairwise distinct;
only a topic text may coincide with one earlier sub-node text. -/
theorem C1_no_dup_within_roles (text : Str)
    (hnd : (splitSentences text).Nodup) :
    (subTexts (generate_mindmap_data text).children).Nodup ∧
    ((buildTopics (splitSentences text)
        (computeMainTopics medical_keywords (splitSentences text)) 0 []).1.map
      Node.text).Nodup := by
  constructor
  · rw [generate_children]
    split
    · rw [show subTexts ((buildTopics (splitSentences text)
          (computeMainTopics medical_keywords (splitSentences text)) 0 []).1 ++
          [Node.mk "node-other" otherText
            (collectOtherGo (buildTopics (splitSentences text)
              (computeMainTopics medical_keywords (splitSentences text)) 0 []).2
              (splitSentences text) 0)]) =
          subTexts (buildTopics (splitSentences text)
            (computeMainTopics medical_keywords (splitSentences text)) 0 []).1 ++
          (collectOtherGo (buildTopics (splitSentences text)
            (computeMainTopics medical_keywords (splitSentences text)) 0 []).2
            (splitSentences text) 0).map Node.text by
        simp [subTexts, List.flatMap_append]]
      rw [collectOther_texts]
      refine List.Nodup.append (buildTopics_subs_nodup _ _ 0 []) (hnd.filter _) ?_
      intro y hy hy'
      have h1 : y ∈ (buildTopics (splitSentences text)
          (computeMainTopics medical_keywords (splitSentences text)) 0 []).2 :=
        (buildTopics_used_mem _ _ 0 [] y).mpr (Or.inr (Or.inr hy))
      have h2 := (List.mem_filter.mp hy').2
      simp only [decide_eq_true_eq] at h2
      exact h2 h1
    · exact buildTopics_subs_nodup _ _ 0 []
  · rw [buildTopics_texts]
    exact computeMainTopics_nodup medical_keywords (splitSentences text) hnd

theorem C1_no_dup_within_roles_witness :
    (splitSentences exSummary).Nodup ∧
      ((subTexts (generate_mindmap_data exSummary).children).Nodup ∧
       ((buildTopics (splitSentences exSummary)
           (computeMainTopics medical_keywords (splitSentences exSummary)) 0
           []).1.map Node.text).Nodup) :=
  ⟨by decide, C1_no_dup_within_roles exSummary (by decide)⟩

theorem topicNode_props (ss tps : List Str) (i : Nat) (c : Node)
    (hc : (buildTopics ss tps 0 []).1.get? i = some c) :
    c.id = topicId i ∧ c.children.length ≤ 3 ∧
    c.children.map Node.id = (List.range c.children.length).map (subId i) ∧
    (c.children.map Node.text).Sublist ss := by
  obtain ⟨hid, htx, u, hch⟩ := buildTopics_get ss tps 0 [] i c hc
  rw [Nat.zero_add] at hid hch
  refine ⟨hid, ?_, ?_, ?_⟩
  · rw [hch]
    simpa using assignSubs_length i ss u 0
  · rw [hch, List.range_eq_range']
    exact assignSubs_ids i ss u 0
  · rw [hch]
    exact assignSubs_texts_sublist i ss u 0

/-- C5: every topic node `node-<i>` has at most 3 children; those children
carry ids `node-<i>-sub-<j>` with j = 0, 1, 2 in assignment order, and their
texts appear in original sentence-sequence order. -/
theorem C5_topic_children (text : Str) (i : Nat) (c : Node)
    (hc : (generate_mindmap_data text).children.get? i = some c)
    (hid : c.id ≠ "node-other") :
    c.id = topicId i ∧ c.children.length ≤ 3 ∧
    c.children.map Node.id = (List.range c.children.length).map (subId i) ∧
    (c.children.map Node.text).Sublist (splitSentences text) := by
  rw [generate_children] at hc
  split at hc
  · by_cases hlt : i < (buildTopics (splitSentences text)
        (computeMainTopics medical_keywords (splitSentences text)) 0 []).1.length
    · rw [List.get?_append hlt] at hc
      exact topicNode_props _ _ i c hc
    · rw [List.get?_append_right (Nat.le_of_not_lt hlt)] at hc
      match hd : i - (buildTopics (splitSentences text)
          (computeMainTopics medical_keywords (splitSentences text)) 0
          []).1.length with
      | 0 =>
        rw [hd] at hc
        simp only [List.get?] at hc
        cases hc
        exact absurd rfl hid
      | d + 1 =>
        rw [hd] at hc
        simp [List.get?] at hc
  · exact topicNode_props _ _ i c hc

theorem C5_topic_children_witness :
    (generate_mindmap_data exSummary).children.get? 0 = some exNode0 ∧
    exNode0.id ≠ "node-other" ∧
    (exNode0.id = topicId 0 ∧ exNode0.children.length ≤ 3 ∧
      exNode0.children.map Node.id =
        (List.range exNode0.children.length).map (subId 0) ∧
      (exNode0.children.map Node.text).Sublist (splitSentences exSummary)) :=
  ⟨rfl, by decide, C5_topic_children exSummary 0 exNode0 rfl (by decide)⟩

/-- C6: the node-other node (text "Other Details") is a child of root if and
only if at least one sentence remains unused after topic and sub-node
assignment; when present it is the last child of root, its children are
exactly the remaining unused sentences in original order with ids
node-other-sub-<k> for k = 0, 1, 2, ... and no cap on their number; when no
sentence remains unused it is omitted entirely. -/
theorem C6_other_node (text : Str) :
    (generate_mindmap_data text).children =
      (if ∃ x ∈ splitSentences text,
          x ∉ (buildTopics (splitSentences text)
            (computeMainTopics medical_keywords (splitSentences text)) 0 []).2 then
        (buildTopics (splitSentences text)
          (computeMainTopics medical_keywords (splitSentences text)) 0 []).1 ++
          [Node.mk "node-other" otherText
            (collectOtherGo (buildTopics (splitSentences text)
              (computeMainTopics medical_keywords (splitSentences text)) 0 []).2
              (splitSentences text) 0)]
      else
        (buildTopics (splitSentences text)
          (computeMainTopics medical_keywords (splitSentences text)) 0 []).1) ∧
    (collectOtherGo (buildTopics (splitSentences text)
        (computeMainTopics medical_keywords (splitSentences text)) 0 []).2
        (splitSentences text) 0).map Node.text =
      (splitSentences text).filter
        (fun x => decide (x ∉ (buildTopics (splitSentences text)
          (computeMainTopics medical_keywords (splitSentences text)) 0 []).2)) ∧
    (collectOtherGo (buildTopics (splitSentences text)
        (computeMainTopics medical_keywords (splitSentences text)) 0 []).2
        (splitSentences text) 0).map Node.id =
      (List.range (collectOtherGo (buildTopics (splitSentences text)
          (computeMainTopics medical_keywords (splitSentences text)) 0 []).2
          (splitSentences text) 0).length).map otherId := by
  refine ⟨generate_children text, collectOther_texts _ _ 0, ?_⟩
  rw [List.range_eq_range']
  exact collectOther_ids _ _ 0

/-- C10: the catch-all loop never adds sentences to the used-set, so a
sentence string that remains unused after topic and sub-node assignment and
occurs k > 1 times in the sentence sequence gives node-other k separate
children all bearing that text, under distinct sequential ids
node-other-sub-<k>. -/
theorem C10_duplicate_unused (text x : Str) (k : Nat)
    (hk : k = (splitSentences text).count x) (h1 : 1 < k)
    (hu : x ∉ (buildTopics (splitSentences text)
        (computeMainTopics medical_keywords (splitSentences text)) 0 []).2) :
    ((collectOtherGo (buildTopics (splitSentences text)
        (computeMainTopics medical_keywords (splitSentences text)) 0 []).2
        (splitSentences text) 0).map Node.text).count x = k ∧
    ((collectOtherGo (buildTopics (splitSentences text)
        (computeMainTopics medical_keywords (splitSentences text)) 0 []).2
        (splitSentences text) 0).map Node.id).Nodup ∧
    (generate_mindmap_data text).children.get?
        ((buildTopics (splitSentences text)
          (computeMainTopics medical_keywords (splitSentences text)) 0
          []).1.length) =
      some (Node.mk "node-other" otherText
        (collectOtherGo (buildTopics (splitSentences text)
          (computeMainTopics medical_keywords (splitSentences text)) 0 []).2
          (splitSentences text) 0)) := by
  have hx : x ∈ splitSentences text := by
    rw [← List.count_pos_iff]
    omega
  refine ⟨?_, ?_, ?_⟩
  · rw [collectOther_texts]
    rw [List.count_filter (by simpa using hu)]
    exact hk.symm
  · have hinj : Function.Injective otherId := fun a b h => otherId_inj h
    rw [collectOther_ids, ← List.range_eq_range']
    exact (List.nodup_range _).map hinj
  · rw [generate_children]
    rw [if_pos ⟨x, hx, hu⟩]
    exact List.get?_concat_length _ _

theorem C10_duplicate_unused_witness :
    2 = (splitSentences dupSummary).count dupX ∧ 1 < 2 ∧
    dupX ∉ (buildTopics (splitSentences dupSummary)
        (computeMainTopics medical_keywords (splitSentences dupSummary)) 0 []).2 ∧
    (((collectOtherGo (buildTopics (splitSentences dupSummary)
        (computeMainTopics medical_keywords (splitSentences dupSummary)) 0 []).2
        (splitSentences dupSummary) 0).map Node.text).count dupX = 2 ∧
     ((collectOtherGo (buildTopics (splitSentences dupSummary)
        (computeMainTopics medical_keywords (splitSentences dupSummary)) 0 []).2
        (splitSentences dupSummary) 0).map Node.id).Nodup ∧
     (generate_mindmap_data dupSummary).children.get?
        ((buildTopics (splitSentences dupSummary)
          (computeMainTopics medical_keywords (splitSentences dupSummary)) 0
          []).1.length) =
      some (Node.mk "node-other" otherText
        (collectOtherGo (buildTopics (splitSentences dupSummary)
          (computeMainTopics medical_keywords (splitSentences dupSummary)) 0 []).2
          (splitSentences dupSummary) 0))) :=
  ⟨by decide, by decide, by decide,
    C10_duplicate_unused dupSummary dupX 2 (by decide) (by decide) (by decide)⟩

/-- C7: the splitter breaks after each occurrence of '.', '!', or '?'
followed by whitespace: the raw pieces reassemble to the input text around
nonempty all-whitespace separator runs (each consecutive whitespace run is
one boundary), every piece except the last ends with its punctuation mark
(attached once, to the preceding side), no piece after the first starts with
whitespace, no boundary pattern remains inside any piece, and the resulting
sentences are the stripped pieces in original order with empty results
dropped, each nonempty and trimmed of surrounding whitespace. -/
theorem C7_splitter (text : Str) :
    ∃ ws : List Str,
      rawSplit text ≠ [] ∧
      ws.length + 1 = (rawSplit text).length ∧
      interleave (rawSplit text) ws = text ∧
      (∀ w ∈ ws, w ≠ [] ∧ ∀ c ∈ w, isWs c = true) ∧
      (∀ p ∈ (rawSplit text).dropLast, ∃ q c, p = q ++ [c] ∧
        isPunct c = true) ∧
      (∀ p ∈ (rawSplit text).tail, ∀ c, p.head? = some c →
        isWs c = false) ∧
      (∀ p ∈ rawSplit text, List.Chain' okPair p) ∧
      splitSentences text =
        ((rawSplit text).map stripChars).filter (fun s => !s.isEmpty) ∧
      (∀ s ∈ splitSentences text, s ≠ [] ∧
        (∀ c, s.head? = some c → isWs c = false) ∧
        (∀ c, s.getLast? = some c → isWs c = false)) := by
  obtain ⟨ws, h1, h2, h3, h4, h5, h6, h7, -⟩ :=
    rawSplitGo_false_spec text.length text [] (Nat.le_refl _)
      (by cases text with
          | nil => simp [List.chain'_nil]
          | cons c t => simp [List.chain'_singleton])
  refine ⟨ws, h1, h2, by simpa using h3, h4, h5, h6, h7, rfl, ?_⟩
  intro s hs
  have hmem := List.mem_filter.mp hs
  have hne : s ≠ [] := by
    intro h0
    rw [h0] at hmem
    simp at hmem
  obtain ⟨r, hr, hrs⟩ := List.mem_map.mp hmem.1
  refine ⟨hne, ?_, ?_⟩
  · intro c hc
    rw [← hrs] at hc
    exact stripChars_head r c hc
  · intro c hc
    rw [← hrs] at hc
    exact stripChars_getLast r c hc
